import Mathlib

/-!
# Verification of the Hybrid Neuro-Symbolic Contradiction Engine core

Shallow embedding of the repository's core modules:
* `contradiction_engine/streaming.py`   (StreamingReader)
* `contradiction_engine/claims.py`      (ClaimExtractor confidence)
* `contradiction_engine/claims_simple.py` (SimplifiedClaimExtractor)
* `contradiction_engine/reasoning.py`   (both detectors)

Strings are modelled by Lean `String` over their character lists (ASCII
scope); Python floats are modelled by `ℚ` except for the embedding
vectors fed to `_cosine_similarity`, which are modelled by `ℝ` because
the source computes a Euclidean norm.
-/

namespace ContradictionEngine

/-! ## Python string primitives (ASCII scope) -/

/-- Python `str.lower()` on a character. -/
def pyLowerChar (c : Char) : Char := c.toLower

/-- Python `str.lower()`. -/
def pyLower (s : String) : String := String.mk (s.toList.map pyLowerChar)

/-- Python `str.lstrip()`: drop leading whitespace. -/
def lstripList (l : List Char) : List Char := l.dropWhile Char.isWhitespace

/-- Python `str.rstrip()`: drop trailing whitespace. -/
def rstripList (l : List Char) : List Char :=
  (l.reverse.dropWhile Char.isWhitespace).reverse

/-- Python `str.strip()`. -/
def pyStrip (s : String) : String := String.mk (rstripList (lstripList s.toList))

/-- Python `str.rstrip()`. -/
def pyRstrip (s : String) : String := String.mk (rstripList s.toList)

/-- Python `suffix`-test `s.endswith(t)`. -/
def pyEndsWith (s t : String) : Bool := t.toList.isSuffixOf s.toList

/-- `needle` occurs as a contiguous sublist of `hay`. -/
def infixOfList (needle : List Char) : List Char → Bool
  | [] => needle.isEmpty
  | c :: rest => needle.isPrefixOf (c :: rest) || infixOfList needle rest

/-- Python substring test `sub in s`. -/
def pyIn (sub s : String) : Bool := infixOfList sub.toList s.toList

/-! ## Data model (`Claim`, `ContradictionResult`) -/

/-- `claims.py` / `claims_simple.py` dataclass `Claim`. -/
structure Claim where
  entity : String
  attr : String
  value : String
  time_context : String
  source_text : String
  chunk_id : Nat
  confidence : ℚ
  deriving DecidableEq, Repr

/-- `reasoning.py` dataclass `ContradictionResult`. -/
structure ContradictionResult where
  entity : String
  attr : String
  values : List String
  locations : List String
  delta : ℚ
  verdict : String
  source_texts : List String
  confidence_scores : List ℚ
  deriving DecidableEq, Repr

/-! ## `SimplifiedContradictionDetector._are_contradictory` -/

/-- The fixed table `opposing_pairs` from
`SimplifiedContradictionDetector._are_contradictory`. -/
def opposing_pairs : List (String × String) :=
  [("alive", "dead"), ("rich", "poor"), ("married", "single"),
   ("present", "absent"), ("young", "old")]

/-- `SimplifiedContradictionDetector._are_contradictory`.
Note the Python test `v1 in pair[0]` asks whether `v1` is a substring
of the table member, so the containment direction is value-inside-member. -/
def are_contradictory (value1 value2 : String) : Bool :=
  let v1 := pyStrip (pyLower value1)
  let v2 := pyStrip (pyLower value2)
  if v1 = v2 then false
  else opposing_pairs.any fun p =>
    (pyIn v1 p.1 && pyIn v2 p.2) || (pyIn v1 p.2 && pyIn v2 p.1)

/-- Modelled from the spec's wording for the opposition test: a pair is
opposing if one value *contains as a substring* one member of a table pair
and the other value contains the other member (the direction opposite to
the code's `v1 in pair[0]`). -/
def spec_opposing (value1 value2 : String) : Bool :=
  if value1 = value2 then false
  else opposing_pairs.any fun p =>
    (pyIn p.1 value1 && pyIn p.2 value2) || (pyIn p.2 value1 && pyIn p.1 value2)

example : are_contradictory "alive" "dead" = true := by decide
example : are_contradictory "alive" "alive" = false := by decide
example : are_contradictory "is alive" "dead" = false := by decide
example : spec_opposing "is alive" "dead" = true := by decide

/-! ## Ordered grouping (Python `defaultdict(list)` with insertion order) -/

/-- Append `x` under key `k`, preserving the insertion order of keys,
as a Python `dict`/`defaultdict(list)` does. -/
def addToGroup {K α : Type} [DecidableEq K] (m : List (K × List α)) (k : K) (x : α) :
    List (K × List α) :=
  match m with
  | [] => [(k, [x])]
  | (k', vs) :: rest =>
    if k' = k then (k', vs ++ [x]) :: rest else (k', vs) :: addToGroup rest k x

/-- Group a list by a key function, insertion-ordered. -/
def groupByKey {K α : Type} [DecidableEq K] (key : α → K) (xs : List α) :
    List (K × List α) :=
  xs.foldl (fun m x => addToGroup m (key x) x) []

/-- The `i < j` double loop over a list, in the loop's emission order. -/
def allPairs {α : Type} : List α → List (α × α)
  | [] => []
  | x :: rest => rest.map (fun y => (x, y)) ++ allPairs rest

/-! ## `SimplifiedContradictionDetector.detect` -/

/-- The normalized value key `claim.value.lower().strip()`. -/
def valueKey (c : Claim) : String := pyStrip (pyLower c.value)

/-- The `values_seen` dict of `SimplifiedContradictionDetector.detect`:
keep only the first claim seen for each distinct normalized value. -/
def values_seen_aux (acc : List (String × Claim)) : List Claim → List (String × Claim)
  | [] => acc
  | c :: rest =>
    let k := valueKey c
    if acc.any (fun p => p.1 = k) then values_seen_aux acc rest
    else values_seen_aux (acc ++ [(k, c)]) rest

/-- `values_seen` built over a group's claim list (insertion-ordered items). -/
def values_seen (cs : List Claim) : List (String × Claim) := values_seen_aux [] cs

/-- The group key `(claim.entity.lower(), claim.attribute.lower())`. -/
def entityAttrKey (c : Claim) : String × String := (pyLower c.entity, pyLower c.attr)

/-- The `ContradictionResult` built by the rule-based detector for a pair of
deduplicated value items; `attribute` is the lowered group key. -/
def mkSimpleResult (attributeKey : String) (c1 c2 : Claim) : ContradictionResult :=
  { entity := c1.entity
    attr := attributeKey
    values := [c1.value, c2.value]
    locations := [c1.time_context, c2.time_context]
    delta := 1.0
    verdict := "CONTRADICTION"
    source_texts := [c1.source_text, c2.source_text]
    confidence_scores := [c1.confidence, c2.confidence] }

/-- `SimplifiedContradictionDetector.detect`: group by
`(entity.lower(), attribute.lower())`, skip groups with fewer than two
claims, deduplicate values, and test every `i < j` pair of value items. -/
def simpleDetect (claims : List Claim) : List ContradictionResult :=
  let entity_attr_map := groupByKey entityAttrKey claims
  entity_attr_map.foldl
    (fun acc g =>
      if g.2.length < 2 then acc
      else
        let value_items := values_seen g.2
        (allPairs value_items).foldl
          (fun acc2 pp =>
            if are_contradictory pp.1.1 pp.2.1 then
              acc2 ++ [mkSimpleResult g.1.2 pp.1.2 pp.2.2]
            else acc2)
          acc)
    []

/-- Scenario A input from the spec (first claim). -/
def edmundAlive : Claim :=
  { entity := "Lord Edmund", attr := "alive", value := "alive",
    time_context := "Ch1", source_text := "Lord Edmund was alive.",
    chunk_id := 0, confidence := 0.95 }

/-- Scenario A input from the spec (second claim). -/
def edmundDead : Claim :=
  { entity := "Lord Edmund", attr := "alive", value := "dead",
    time_context := "Ch5", source_text := "Lord Edmund had died.",
    chunk_id := 5, confidence := 0.92 }

example :
    simpleDetect [edmundAlive, edmundDead] =
      [{ entity := "Lord Edmund", attr := "alive", values := ["alive", "dead"],
         locations := ["Ch1", "Ch5"], delta := 1.0, verdict := "CONTRADICTION",
         source_texts := ["Lord Edmund was alive.", "Lord Edmund had died."],
         confidence_scores := [0.95, 0.92] }] := rfl

/-! ## `ContradictionDetector` (similarity-then-entailment) -/

/-- `ContradictionDetector._claim_to_text`: canonical sentence
`"<entity> <attribute> <value>[ in <time_context>]"`. -/
def claim_to_text (c : Claim) : String :=
  let text := c.entity ++ " " ++ c.attr ++ " " ++ c.value
  if c.time_context ≠ "Unknown" then text ++ " in " ++ c.time_context else text

/-- Dot product of `_cosine_similarity` (numpy `np.dot`). -/
def dotProduct (v1 v2 : List ℝ) : ℝ := (List.zipWith (· * ·) v1 v2).sum

/-- Euclidean norm of `_cosine_similarity` (numpy `np.linalg.norm`). -/
noncomputable def vecNorm (v : List ℝ) : ℝ :=
  Real.sqrt ((v.map fun x => x * x).sum)

/-- `ContradictionDetector._cosine_similarity`: guarded cosine similarity. -/
noncomputable def cosine_similarity (vec1 vec2 : List ℝ) : ℝ :=
  let dot_product := dotProduct vec1 vec2
  let norm1 := vecNorm vec1
  let norm2 := vecNorm vec2
  if norm1 = 0 ∨ norm2 = 0 then 0.0
  else dot_product / (norm1 * norm2)

section
open scoped Classical

/-- `ContradictionDetector._semantic_filter`, with the embedding model
abstracted as a per-text encoding function (the batched
`semantic_model.encode` is deterministic per text). -/
noncomputable def semantic_filter (encode : String → List ℝ)
    (similarity_threshold : ℝ) (claims : List Claim) : List (Claim × Claim) :=
  if claims.length < 2 then []
  else
    (allPairs claims).filter fun p =>
      decide (similarity_threshold ≤
        cosine_similarity (encode (claim_to_text p.1)) (encode (claim_to_text p.2)))

end

/-- The `ContradictionResult` built by `ContradictionDetector._logic_juror`
for an accepted pair. -/
def mkScoredResult (c1 c2 : Claim) (delta : ℚ) : ContradictionResult :=
  { entity := c1.entity
    attr := c1.attr
    values := [c1.value, c2.value]
    locations := [c1.time_context, c2.time_context]
    delta := delta
    verdict := "CONTRADICTION"
    source_texts := [c1.source_text, c2.source_text]
    confidence_scores := [c1.confidence, c2.confidence] }

/-- `ContradictionDetector._logic_juror`, with the NLI cross-encoder
abstracted as a scoring function returning the
`[contradiction, entailment, neutral]` triple. -/
def logic_juror (score : String → String → ℚ × ℚ × ℚ) (threshold : ℚ)
    (pairs : List (Claim × Claim)) : List ContradictionResult :=
  pairs.foldl
    (fun acc p =>
      let scores := score (claim_to_text p.1) (claim_to_text p.2)
      let delta := scores.1 - scores.2.1
      if delta ≥ threshold then acc ++ [mkScoredResult p.1 p.2 delta] else acc)
    []

/-- The group key `claim.entity.lower().strip()` of
`ContradictionDetector._group_by_entity`. -/
def entityKey (c : Claim) : String := pyStrip (pyLower c.entity)

/-- `ContradictionDetector.detect`: group by normalized entity, skip
entities with fewer than two claims, then Stage A (`_semantic_filter`)
followed by Stage B (`_logic_juror`); the empty-candidate `continue` is
the identity on the accumulated results. -/
noncomputable def fullDetect (encode : String → List ℝ)
    (score : String → String → ℚ × ℚ × ℚ) (threshold : ℚ)
    (similarity_threshold : ℝ) (claims : List Claim) : List ContradictionResult :=
  let entity_claims := groupByKey entityKey claims
  entity_claims.foldl
    (fun acc g =>
      if g.2.length < 2 then acc
      else
        let candidate_pairs := semantic_filter encode similarity_threshold g.2
        if candidate_pairs.isEmpty then acc
        else acc ++ logic_juror score threshold candidate_pairs)
    []

/-! ## Confidence (`ClaimExtractor._calculate_confidence` and the
fixed constant of `SimplifiedClaimExtractor`) -/

/-- `uncertainty_markers` from `ClaimExtractor._calculate_confidence`. -/
def uncertainty_markers : List String :=
  ["maybe", "perhaps", "possibly", "might", "could", "seemed"]

/-- `metaphor_markers` from `ClaimExtractor._calculate_confidence`. -/
def metaphor_markers : List String :=
  ["like", "as if", "metaphorically", "figuratively"]

/-- `ClaimExtractor._calculate_confidence`: start at 1.0, subtract 0.3 for
each uncertainty marker found in the lowercased text, 0.4 for each
metaphor marker found, 0.5 for a trailing question mark, clamp to [0,1].
Each `marker in text.lower()` test fires at most once per marker. -/
def calculate_confidence (text : String) : ℚ :=
  let confidence : ℚ := 1.0
  let confidence := uncertainty_markers.foldl
    (fun c marker => if pyIn marker (pyLower text) then c - 0.3 else c) confidence
  let confidence := metaphor_markers.foldl
    (fun c marker => if pyIn marker (pyLower text) then c - 0.4 else c) confidence
  let confidence :=
    if pyEndsWith (pyStrip text) "?" then confidence - 0.5 else confidence
  max 0.0 (min 1.0 confidence)

/-- Count the occurrences of `needle` in `hay` (number of character
positions at which `needle` starts). -/
def countOccurrencesList (needle : List Char) : List Char → Nat
  | [] => if needle.isPrefixOf ([] : List Char) then 1 else 0
  | c :: rest =>
    (if needle.isPrefixOf (c :: rest) then 1 else 0) + countOccurrencesList needle rest

/-- Occurrence count of a marker string in a text string. -/
def countOccurrences (needle hay : String) : Nat :=
  countOccurrencesList needle.toList hay.toList

/-- Modelled from the spec's wording for the richer extractor's confidence:
subtract a fixed penalty per *occurrence* of each marker anywhere in the
sentence (0.3 per uncertainty-word occurrence, 0.4 per metaphor-marker
occurrence, 0.5 for a trailing question mark), then clamp to [0,1]. -/
def spec_confidence (text : String) : ℚ :=
  let uncertain : ℚ :=
    ((uncertainty_markers.map fun m => countOccurrences m (pyLower text)).sum : ℕ)
  let metaphor : ℚ :=
    ((metaphor_markers.map fun m => countOccurrences m (pyLower text)).sum : ℕ)
  let base := 1.0 - 0.3 * uncertain - 0.4 * metaphor -
    (if pyEndsWith (pyStrip text) "?" then 0.5 else 0)
  max 0.0 (min 1.0 base)

/-- The fixed extraction confidence of
`SimplifiedClaimExtractor.extract_from_chunk` (`confidence=0.8`). -/
def SIMPLE_EXTRACTION_CONFIDENCE : ℚ := 0.8

/-! ## `StreamingReader` (`streaming.py`)

The byte stream is modelled as the list of decoded text blocks produced
by the fixed-size physical reads (ASCII scope, so UTF-8 decoding is the
identity on each block). -/

/-- `MAX_SENTENCE_BUFFER` from `config.py`. -/
def MAX_SENTENCE_BUFFER : Nat := 5

/-- `common_abbrev` from `StreamingReader._is_abbreviation`. -/
def common_abbrev : List String :=
  ["Mr.", "Mrs.", "Dr.", "Ms.", "Prof.", "Sr.", "Jr.",
   "vs.", "etc.", "i.e.", "e.g.", "Inc.", "Ltd."]

/-- `StreamingReader._is_abbreviation`: the text, right-stripped, ends
with one of the listed abbreviations. -/
def is_abbreviation (text : String) : Bool :=
  common_abbrev.any fun a => pyEndsWith (pyRstrip text) a

/-- Sentence-terminal characters of `StreamingReader._split_sentences`. -/
def isSentencePunct (c : Char) : Bool := c = '.' || c = '!' || c = '?'

/-- The character scan of `StreamingReader._split_sentences`:
`sentences` and `current` accumulate exactly as in the Python loop. -/
def split_sentences_aux (sentences : List String) (current : List Char) :
    List Char → List String
  | [] =>
    if (pyStrip (String.mk current)) ≠ "" then
      sentences ++ [pyStrip (String.mk current)]
    else sentences
  | ch :: rest =>
    let current' := current ++ [ch]
    if isSentencePunct ch ∧ current'.length > 1 then
      if is_abbreviation (String.mk current') then
        split_sentences_aux sentences current' rest
      else split_sentences_aux (sentences ++ [pyStrip (String.mk current')]) [] rest
    else split_sentences_aux sentences current' rest

/-- `StreamingReader._split_sentences`. -/
def split_sentences (text : String) : List String :=
  split_sentences_aux [] [] text.toList

/-- The tuple-`endswith` test
`text_chunk.rstrip().endswith(('.', '!', '?', '"', "'"))`. -/
def endsWithTerminal (text : String) : Bool :=
  pyEndsWith (pyRstrip text) "." || pyEndsWith (pyRstrip text) "!" ||
  pyEndsWith (pyRstrip text) "?" || pyEndsWith (pyRstrip text) "\"" ||
  pyEndsWith (pyRstrip text) "\x27"

/-- The loop-carried state of `StreamingReader.stream_chunks`. -/
structure ReaderState where
  sentence_buffer : List String
  incomplete_sentence : String
  deriving DecidableEq, Repr

/-- One iteration of the `while` loop of `StreamingReader.stream_chunks`
on a decoded block: returns the new state and the chunks yielded. -/
def processBlock (st : ReaderState) (block : String) : ReaderState × List String :=
  let text_chunk := st.incomplete_sentence ++ block
  let sentences := split_sentences text_chunk
  let step :=
    if sentences ≠ [] ∧ ¬ endsWithTerminal text_chunk then
      (sentences.dropLast, sentences.getLastD "")
    else (sentences, "")
  let sentence_buffer := st.sentence_buffer ++ step.1
  if sentence_buffer.length ≥ MAX_SENTENCE_BUFFER then
    (⟨[], step.2⟩, [String.intercalate " " sentence_buffer])
  else (⟨sentence_buffer, step.2⟩, [])

/-- The final flush of `StreamingReader.stream_chunks` after the last block. -/
def finalFlush (st : ReaderState) : List String :=
  if st.sentence_buffer ≠ [] ∨ st.incomplete_sentence ≠ "" then
    let final_chunk := String.intercalate " " st.sentence_buffer
    let final_chunk :=
      if st.incomplete_sentence ≠ "" then
        final_chunk ++ " " ++ st.incomplete_sentence
      else final_chunk
    if pyStrip final_chunk ≠ "" then [final_chunk] else []
  else []

/-- `StreamingReader.stream_chunks` over the list of decoded read blocks. -/
def stream_chunks (blocks : List String) : List String :=
  let result := blocks.foldl
    (fun (acc : ReaderState × List String) block =>
      let step := processBlock acc.1 block
      (step.1, acc.2 ++ step.2))
    (⟨[], ""⟩, [])
  result.2 ++ finalFlush result.1

example : stream_chunks [] = [] := by decide
example : stream_chunks ["One two three. Four five six."] =
    ["One two three. Four five six."] := by decide

/-! ## Time context (`SimplifiedClaimExtractor`, `claims_simple.py`) -/

/-- `TEMPORAL_KEYWORDS` from `config.py`. -/
def TEMPORAL_KEYWORDS : List String :=
  ["chapter", "act", "scene", "part", "book", "section"]

/-- A regex word character (`\w`, ASCII scope). -/
def isWordChar (c : Char) : Bool := c.isAlphanum || c = '_'

/-- A character matched by `[IVX\d]` under `re.IGNORECASE`. -/
def isNumTokenChar (c : Char) : Bool :=
  c.isDigit || c = 'I' || c = 'V' || c = 'X' || c = 'i' || c = 'v' || c = 'x'

/-- Case-insensitive literal match of `kw` at the head of `l`; returns the
remainder on success (`re.IGNORECASE` on the keyword). -/
def ciPrefixDrop : List Char → List Char → Option (List Char)
  | [], l => some l
  | _ :: _, [] => none
  | k :: ks, c :: cs => if c.toLower = k then ciPrefixDrop ks cs else none

/-- Match `\s+([IVX\d]+)\b` at the head of `l`, returning the captured
numeral token. A shorter numeral run never helps the trailing `\b`, so
the maximal run is the only candidate. -/
def matchNumAt (l : List Char) : Option (List Char) :=
  let ws := l.takeWhile Char.isWhitespace
  let afterWs := l.dropWhile Char.isWhitespace
  if ws = [] then none
  else
    let num := afterWs.takeWhile isNumTokenChar
    let afterNum := afterWs.dropWhile isNumTokenChar
    if num = [] then none
    else
      match afterNum with
      | [] => some num
      | c :: _ => if isWordChar c then none else some num

/-- Leftmost search for `\b<kw>\s+([IVX\d]+)\b` (the keyword begins with a
word character, so `\b` holds exactly when the previous character is not a
word character). -/
def searchKeywordAux (kw : List Char) : List Char → Bool → Option (List Char)
  | [], _ => none
  | c :: rest, prevIsWord =>
    match if prevIsWord then none else (ciPrefixDrop kw (c :: rest)).bind matchNumAt with
    | some num => some num
    | none => searchKeywordAux kw rest (isWordChar c)

/-- Python `str.title()` restricted to a single lowercase word. -/
def pyTitle (s : String) : String :=
  match s.toList with
  | [] => ""
  | c :: rest => String.mk (c.toUpper :: rest.map Char.toLower)

/-- `SimplifiedClaimExtractor._detect_time_context`: first keyword (in
`TEMPORAL_KEYWORDS` order) whose pattern matches somewhere in the text. -/
def detect_time_context (text : String) : Option String :=
  TEMPORAL_KEYWORDS.findSome? fun keyword =>
    (searchKeywordAux keyword.toList text.toList false).map fun num =>
      pyTitle keyword ++ " " ++ String.mk num

example : detect_time_context "In Chapter 5 it rained" = some "Chapter 5" := by decide
example : detect_time_context "He acted fast" = none := by decide
example : detect_time_context "act II began" = some "Act II" := by decide
example : detect_time_context "the chapters 5" = none := by decide

/-- The initial `self.current_time_context` set in
`SimplifiedClaimExtractor.__init__`. -/
def INITIAL_TIME_CONTEXT : String := "Unknown"

/-- The time-context update at the top of
`SimplifiedClaimExtractor.extract_from_chunk`: an explicit argument wins;
otherwise a detected context wins; otherwise the previous context sticks. -/
def update_time_context (time_context : Option String) (text : String)
    (current : String) : String :=
  match time_context with
  | some ctx => ctx
  | none =>
    match detect_time_context text with
    | some detected => detected
    | none => current

/-! ## `SimplifiedClaimExtractor.extract_from_chunk` -/

/-- `re.split(r'[.!?]+', text)`: segments between runs of sentence
punctuation (empty segments included, as `re.split` produces them). -/
def splitPunctRuns : List Char → List (List Char)
  | [] => [[]]
  | c :: rest =>
    let r := splitPunctRuns rest
    if isSentencePunct c then
      match rest with
      | c' :: _ => if isSentencePunct c' then r else [] :: r
      | [] => [] :: r
    else
      match r with
      | s :: ss => (c :: s) :: ss
      | [] => [[c]]

/-- The sentence segments of `re.split(r'[.!?]+', text)` as strings. -/
def splitSentenceSegments (text : String) : List String :=
  (splitPunctRuns text.toList).map String.mk

example : splitSentenceSegments "a.b" = ["a", "b"] := by decide
example : splitSentenceSegments "a!?b." = ["a", "b", ""] := by decide

/-- `non_names` from `SimplifiedClaimExtractor._is_likely_name`. -/
def non_names : List String :=
  ["The", "A", "An", "This", "That", "These", "Those",
   "It", "He", "She", "They", "What", "When", "Where"]

/-- `SimplifiedClaimExtractor._is_likely_name`. -/
def is_likely_name (text : String) : Bool :=
  match text.toList with
  | [] => false
  | c :: _ =>
    if ¬ c.isUpper then false
    else
      let first_word := String.mk (text.toList.takeWhile fun ch => ¬ ch.isWhitespace)
      if first_word ∈ non_names then false
      else if text.length > 50 then false
      else true

example : is_likely_name "Lord Edmund" = true := by decide
example : is_likely_name "The castle" = false := by decide
example : is_likely_name "edmund" = false := by decide

/-- An abstract per-sentence pattern matcher standing for the
`state_patterns` regex loop: for a sentence it returns the
`(entity, attribute, value)` triples of the successive regex matches
(entity already `.strip()`-ed, value resolved from the captured group or
the implicit value). The extractor's handling of each triple is modelled
concretely. -/
def runMatcher (matcher : String → List (String × String × String))
    (ctx : String) (chunk_id : Nat) (sent : String) : List Claim :=
  (matcher sent).foldl
    (fun acc eav =>
      if is_likely_name eav.1 then
        acc ++ [{ entity := eav.1, attr := eav.2.1, value := eav.2.2,
                  time_context := ctx, source_text := pyStrip sent,
                  chunk_id := chunk_id,
                  confidence := SIMPLE_EXTRACTION_CONFIDENCE }]
      else acc)
    []

/-- `SimplifiedClaimExtractor.extract_from_chunk` with the regex matcher
abstracted: update the time context, split into sentences, skip sentences
whose stripped length is below 10, and build a claim per accepted match.
Returns the claims and the updated `self.current_time_context`. -/
def extract_from_chunk (matcher : String → List (String × String × String))
    (text : String) (chunk_id : Nat) (time_context : Option String)
    (current : String) : List Claim × String :=
  let ctx := update_time_context time_context text current
  let claims := (splitSentenceSegments text).foldl
    (fun acc sent =>
      if (pyStrip sent).length < 10 then acc
      else acc ++ runMatcher matcher ctx chunk_id sent)
    []
  (claims, ctx)

/-! ## Generic fold lemmas -/

/-- A fold that conditionally appends singletons is a `filterMap`. -/
theorem foldl_cond_append {α β : Type} (p : α → Bool) (f : α → β) :
    ∀ (l : List α) (acc : List β),
      l.foldl (fun a x => if p x then a ++ [f x] else a) acc =
        acc ++ l.filterMap (fun x => if p x then some (f x) else none) := by
  intro l
  induction l with
  | nil => intro acc; simp
  | cons x rest ih =>
    intro acc
    by_cases h : p x
    · simp [h, ih, List.filterMap_cons]
    · simp [h, ih, List.filterMap_cons]

/-- Membership in a fold that appends a block per element. -/
theorem mem_foldl_append {γ β : Type} (f : γ → List β) :
    ∀ (l : List γ) (acc : List β) (r : β),
      r ∈ l.foldl (fun a g => a ++ f g) acc ↔ r ∈ acc ∨ ∃ g ∈ l, r ∈ f g := by
  intro l
  induction l with
  | nil => intro acc r; simp
  | cons g rest ih =>
    intro acc r
    rw [List.foldl_cons, ih]
    simp [List.mem_append, or_assoc]

/-- A fold subtracting a fixed penalty for the elements satisfying `p`
subtracts the penalty once per such element. -/
theorem foldl_if_sub (p : String → Bool) (a : ℚ) :
    ∀ (l : List String) (c0 : ℚ),
      l.foldl (fun c m => if p m then c - a else c) c0 =
        c0 - a * ((l.filter p).length : ℚ) := by
  intro l
  induction l with
  | nil => intro c0; simp
  | cons m rest ih =>
    intro c0
    by_cases h : p m
    · rw [List.foldl_cons, if_pos h, ih, List.filter_cons, if_pos h,
        List.length_cons]
      push_cast
      ring
    · rw [List.foldl_cons, if_neg h, ih, List.filter_cons, if_neg h]

/-! ## `values_seen` invariants -/

/-- The accumulator is a prefix of the result of `values_seen_aux`. -/
theorem values_seen_aux_extend :
    ∀ (cs : List Claim) (acc : List (String × Claim)),
      ∃ t, values_seen_aux acc cs = acc ++ t := by
  intro cs
  induction cs with
  | nil => intro acc; exact ⟨[], by simp [values_seen_aux]⟩
  | cons c rest ih =>
    intro acc
    rw [values_seen_aux]
    by_cases h : acc.any (fun p => p.1 = valueKey c)
    · simpa [h] using ih acc
    · obtain ⟨t, ht⟩ := ih (acc ++ [(valueKey c, c)])
      exact ⟨(valueKey c, c) :: t, by simp [h, ht]⟩

/-- The length of `values_seen_aux` is bounded by the inputs. -/
theorem values_seen_aux_length :
    ∀ (cs : List Claim) (acc : List (String × Claim)),
      (values_seen_aux acc cs).length ≤ acc.length + cs.length := by
  intro cs
  induction cs with
  | nil => intro acc; simp [values_seen_aux]
  | cons c rest ih =>
    intro acc
    rw [values_seen_aux]
    by_cases h : acc.any (fun p => p.1 = valueKey c)
    · simp only [h, if_true]
      calc (values_seen_aux acc rest).length ≤ acc.length + rest.length := ih acc
        _ ≤ acc.length + (c :: rest).length := by
            simp only [List.length_cons]; omega
    · simp only [h, if_false]
      calc (values_seen_aux (acc ++ [(valueKey c, c)]) rest).length
          ≤ (acc ++ [(valueKey c, c)]).length + rest.length := ih _
        _ = acc.length + (c :: rest).length := by
            simp only [List.length_append, List.length_cons, List.length_nil]
            omega

/-- Keys of `values_seen_aux` stay duplicate-free. -/
theorem values_seen_aux_nodup :
    ∀ (cs : List Claim) (acc : List (String × Claim)),
      (acc.map Prod.fst).Nodup → ((values_seen_aux acc cs).map Prod.fst).Nodup := by
  intro cs
  induction cs with
  | nil => intro acc h; simpa [values_seen_aux] using h
  | cons c rest ih =>
    intro acc h
    rw [values_seen_aux]
    by_cases hk : acc.any (fun p => p.1 = valueKey c)
    · simpa [hk] using ih acc h
    · simp only [hk, if_false]
      refine ih _ ?_
      simp only [List.map_append, List.map_cons, List.map_nil]
      rw [List.nodup_append]
      refine ⟨h, List.nodup_singleton _, ?_⟩
      intro k hkacc hksing
      simp only [List.mem_singleton] at hksing
      subst hksing
      rw [List.any_eq_true] at hk
      rcases List.mem_map.mp hkacc with ⟨p, hp, hpk⟩
      exact hk ⟨p, hp, by simp [hpk]⟩

/-- Every entry of `values_seen_aux` comes from the accumulator or is the
first claim of the input holding its (fresh) normalized value. -/
theorem values_seen_aux_mem :
    ∀ (cs : List Claim) (acc : List (String × Claim)) (k : String) (c : Claim),
      (k, c) ∈ values_seen_aux acc cs →
        (k, c) ∈ acc ∨
          (k ∉ acc.map Prod.fst ∧
            cs.find? (fun c' => valueKey c' == k) = some c) := by
  intro cs
  induction cs with
  | nil => intro acc k c h; exact Or.inl (by simpa [values_seen_aux] using h)
  | cons c0 rest ih =>
    intro acc k c h
    rw [values_seen_aux] at h
    by_cases hk : acc.any (fun p => p.1 = valueKey c0)
    · rw [if_pos hk] at h
      rcases ih acc k c h with hacc | ⟨hnotin, hfind⟩
      · exact Or.inl hacc
      · refine Or.inr ⟨hnotin, ?_⟩
        rw [List.find?_cons_of_neg, hfind]
        intro hbeq
        rw [beq_iff_eq] at hbeq
        rw [List.any_eq_true] at hk
        rcases hk with ⟨p, hp, hpk⟩
        simp only [decide_eq_true_eq] at hpk
        exact hnotin (hbeq ▸ List.mem_map.mpr ⟨p, hp, hpk⟩)
    · rw [if_neg hk] at h
      rcases ih _ k c h with hacc | ⟨hnotin, hfind⟩
      · rcases List.mem_append.mp hacc with hacc' | hnew
        · exact Or.inl hacc'
        · simp only [List.mem_singleton, Prod.mk.injEq] at hnew
          obtain ⟨rfl, rfl⟩ := hnew
          refine Or.inr ⟨?_, ?_⟩
          · intro hmem
            rw [List.any_eq_true] at hk
            rcases List.mem_map.mp hmem with ⟨p, hp, hpk⟩
            exact hk ⟨p, hp, by simp [hpk]⟩
          · exact List.find?_cons_of_pos _ (by simp)
      · simp only [List.map_append, List.map_cons, List.map_nil,
          List.mem_append, List.mem_singleton] at hnotin
        push_neg at hnotin
        refine Or.inr ⟨hnotin.1, ?_⟩
        rw [List.find?_cons_of_neg, hfind]
        intro hbeq
        rw [beq_iff_eq] at hbeq
        exact hnotin.2 hbeq.symm

/-- Every normalized value of the input list is represented in the
result of `values_seen_aux`. -/
theorem values_seen_aux_complete :
    ∀ (cs : List Claim) (acc : List (String × Claim)) (c : Claim), c ∈ cs →
      valueKey c ∈ (values_seen_aux acc cs).map Prod.fst := by
  intro cs
  induction cs with
  | nil => intro acc c h; cases h
  | cons c0 rest ih =>
    intro acc c h
    rw [values_seen_aux]
    rcases List.mem_cons.mp h with rfl | hrest
    · by_cases hk : acc.any (fun p => p.1 = valueKey c)
      · rw [if_pos hk]
        rw [List.any_eq_true] at hk
        rcases hk with ⟨p, hp, hpk⟩
        simp only [decide_eq_true_eq] at hpk
        obtain ⟨t, ht⟩ := values_seen_aux_extend rest acc
        rw [ht]
        exact List.mem_map.mpr ⟨p, List.mem_append_left _ hp, hpk⟩
      · rw [if_neg hk]
        obtain ⟨t, ht⟩ := values_seen_aux_extend rest (acc ++ [(valueKey c, c)])
        rw [ht]
        exact List.mem_map.mpr ⟨(valueKey c, c), by simp, rfl⟩
    · by_cases hk : acc.any (fun p => p.1 = valueKey c0)
      · rw [if_pos hk]; exact ih acc c hrest
      · rw [if_neg hk]; exact ih _ c hrest

/-! ## `groupByKey` characterization -/

section GroupBy

variable {K α : Type} [DecidableEq K]

/-- The keys of `addToGroup`: unchanged when the key exists, the new key
appended otherwise. -/
theorem addToGroup_keys (k : K) (x : α) :
    ∀ (m : List (K × List α)),
      (addToGroup m k x).map Prod.fst =
        if k ∈ m.map Prod.fst then m.map Prod.fst else m.map Prod.fst ++ [k] := by
  intro m
  induction m with
  | nil => simp [addToGroup]
  | cons e rest ih =>
    obtain ⟨k0, g0⟩ := e
    by_cases h : k0 = k
    · subst h
      simp [addToGroup]
    · simp only [addToGroup, h, if_false, List.map_cons, ih]
      by_cases hmem : k ∈ rest.map Prod.fst
      · simp [hmem, Ne.symm h]
      · simp [hmem, Ne.symm h]

/-- Entries with a different key are untouched by `addToGroup`. -/
theorem addToGroup_mem_other {k k' : K} {x : α} (hne : k' ≠ k) :
    ∀ (m : List (K × List α)) (g' : List α),
      (k', g') ∈ addToGroup m k x ↔ (k', g') ∈ m := by
  intro m
  induction m with
  | nil => intro g'; simp [addToGroup, hne]
  | cons e rest ih =>
    obtain ⟨k0, g0⟩ := e
    intro g'
    by_cases h : k0 = k
    · subst h
      simp [addToGroup, List.mem_cons, hne]
    · simp [addToGroup, h, List.mem_cons, ih]

/-- Inserting a fresh key makes exactly the singleton group. -/
theorem addToGroup_mem_new {k : K} {x : α} :
    ∀ (m : List (K × List α)), k ∉ m.map Prod.fst →
      ∀ (g' : List α), ((k, g') ∈ addToGroup m k x ↔ g' = [x]) := by
  intro m
  induction m with
  | nil => intro _ g'; simp [addToGroup]
  | cons e rest ih =>
    obtain ⟨k0, g0⟩ := e
    intro hnotin g'
    simp only [List.map_cons, List.mem_cons] at hnotin
    push_neg at hnotin
    have h : k0 ≠ k := fun h => hnotin.1 h.symm
    simp [addToGroup, h, List.mem_cons, hnotin.1, ih hnotin.2]

/-- Appending to an existing key (keys duplicate-free): the group for `k`
becomes `g ++ [x]`. -/
theorem addToGroup_mem_old {k : K} {x : α} :
    ∀ (m : List (K × List α)), (m.map Prod.fst).Nodup →
      ∀ (g g' : List α), (k, g) ∈ m →
        ((k, g') ∈ addToGroup m k x ↔ g' = g ++ [x]) := by
  intro m
  induction m with
  | nil => intro _ g g' h; cases h
  | cons e rest ih =>
    obtain ⟨k0, g0⟩ := e
    intro hnd g g' hmem
    simp only [List.map_cons, List.nodup_cons] at hnd
    by_cases h : k0 = k
    · subst h
      have hg : g = g0 := by
        rcases List.mem_cons.mp hmem with he | hr
        · exact congrArg Prod.snd he
        · exact absurd (List.mem_map.mpr ⟨(k0, g), hr, rfl⟩) hnd.1
      subst hg
      have hnomem : ∀ g'', (k0, g'') ∉ rest := by
        intro g'' hr
        exact hnd.1 (List.mem_map.mpr ⟨(k0, g''), hr, rfl⟩)
      simp [addToGroup, List.mem_cons, hnomem]
    · have hr : (k, g) ∈ rest := by
        rcases List.mem_cons.mp hmem with he | hr
        · exact absurd (congrArg Prod.fst he).symm h
        · exact hr
      simp [addToGroup, h, List.mem_cons, Ne.symm h, ih hnd.2 g g' hr]

/-- One loop step of `groupByKey`. -/
theorem groupByKey_step (key : α → K) (xs : List α) (x : α) :
    groupByKey key (xs ++ [x]) = addToGroup (groupByKey key xs) (key x) x := by
  simp [groupByKey, List.foldl_append]

/-- Full characterization of `groupByKey`: keys are duplicate-free, a key
is present exactly when some element has it, and each group is the filter
of the input by that key (so groups preserve input order and multiplicity). -/
theorem groupByKey_char (key : α → K) :
    ∀ xs : List α,
      ((groupByKey key xs).map Prod.fst).Nodup ∧
      (∀ k, k ∈ (groupByKey key xs).map Prod.fst ↔ ∃ y ∈ xs, key y = k) ∧
      (∀ k g, (k, g) ∈ groupByKey key xs →
        g = xs.filter (fun y => decide (key y = k))) := by
  intro xs
  induction xs using List.reverseRecOn with
  | nil => simp [groupByKey]
  | append_singleton xs x ih =>
    obtain ⟨hnd, hkeys, hgroups⟩ := ih
    rw [groupByKey_step]
    have hAkeys := addToGroup_keys (key x) x (groupByKey key xs)
    refine ⟨?_, ?_, ?_⟩
    · rw [hAkeys]
      by_cases hmem : key x ∈ (groupByKey key xs).map Prod.fst
      · simpa [hmem] using hnd
      · rw [if_neg hmem, List.nodup_append]
        exact ⟨hnd, List.nodup_singleton _,
          fun a ha hb => hmem (by rwa [List.mem_singleton.mp hb] at ha)⟩
    · intro k
      rw [hAkeys]
      by_cases hmem : key x ∈ (groupByKey key xs).map Prod.fst
      · rw [if_pos hmem, hkeys k]
        constructor
        · rintro ⟨y, hy, hk⟩
          exact ⟨y, List.mem_append_left _ hy, hk⟩
        · rintro ⟨y, hy, hk⟩
          rcases List.mem_append.mp hy with hy' | hy'
          · exact ⟨y, hy', hk⟩
          · rw [List.mem_singleton] at hy'
            subst hy'
            obtain ⟨z, hz, hzk⟩ := (hkeys (key y)).mp hmem
            exact ⟨z, hz, hzk.trans hk⟩
      · rw [if_neg hmem, List.mem_append, List.mem_singleton, hkeys k]
        constructor
        · rintro (⟨y, hy, hk⟩ | rfl)
          · exact ⟨y, List.mem_append_left _ hy, hk⟩
          · exact ⟨x, List.mem_append_right _ (List.mem_singleton_self x), rfl⟩
        · rintro ⟨y, hy, hk⟩
          rcases List.mem_append.mp hy with hy' | hy'
          · exact Or.inl ⟨y, hy', hk⟩
          · rw [List.mem_singleton] at hy'
            subst hy'
            exact Or.inr hk.symm
    · intro k g hkg
      by_cases hk : k = key x
      · subst hk
        by_cases hmem : key x ∈ (groupByKey key xs).map Prod.fst
        · obtain ⟨⟨k', g0⟩, hp, hpk⟩ := List.mem_map.mp hmem
          simp only at hpk
          subst hpk
          have hg := (addToGroup_mem_old _ hnd g0 g hp).mp hkg
          subst hg
          rw [hgroups _ _ hp, List.filter_append]
          simp
        · have hg := (addToGroup_mem_new _ hmem g).mp hkg
          subst hg
          have hnone : xs.filter (fun y => decide (key y = key x)) = [] := by
            rw [List.filter_eq_nil_iff]
            intro y hy hbeq
            rw [decide_eq_true_eq] at hbeq
            exact hmem ((hkeys (key x)).mpr ⟨y, hy, hbeq⟩)
          rw [List.filter_append, hnone]
          simp
      · have hmem := (addToGroup_mem_other hk _ g).mp hkg
        rw [hgroups _ _ hmem, List.filter_append]
        have hx : [x].filter (fun y => decide (key y = k)) = [] := by
          simp [List.filter_cons, Ne.symm hk]
        rw [hx, List.append_nil]

/-- Elements of a group carry the group key and come from the input. -/
theorem groupByKey_mem_claims (key : α → K) (xs : List α) (k : K) (g : List α)
    (hkg : (k, g) ∈ groupByKey key xs) : ∀ c ∈ g, key c = k ∧ c ∈ xs := by
  intro c hc
  have hg := (groupByKey_char key xs).2.2 k g hkg
  subst hg
  have hmem := List.mem_filter.mp hc
  exact ⟨by simpa using hmem.2, hmem.1⟩

end GroupBy

/-! ## `allPairs` and filter lemmas -/

/-- Both components of an emitted pair come from the list. -/
theorem mem_allPairs {α : Type} :
    ∀ (l : List α) (a b : α), (a, b) ∈ allPairs l → a ∈ l ∧ b ∈ l := by
  intro l
  induction l with
  | nil => intro a b h; cases h
  | cons x rest ih =>
    intro a b h
    rw [allPairs, List.mem_append] at h
    rcases h with h | h
    · rcases List.mem_map.mp h with ⟨y, hy, he⟩
      obtain ⟨rfl, rfl⟩ := Prod.mk.injEq .. ▸ he
      exact ⟨List.mem_cons_self _ _, List.mem_cons_of_mem _ hy⟩
    · obtain ⟨ha, hb⟩ := ih a b h
      exact ⟨List.mem_cons_of_mem _ ha, List.mem_cons_of_mem _ hb⟩

/-- A list with an emitted pair has at least two elements. -/
theorem mem_allPairs_length {α : Type} :
    ∀ (l : List α) (pp : α × α), pp ∈ allPairs l → 2 ≤ l.length := by
  intro l
  induction l with
  | nil => intro pp h; cases h
  | cons x rest ih =>
    intro pp h
    rw [allPairs, List.mem_append] at h
    rcases h with h | h
    · rcases List.mem_map.mp h with ⟨y, hy, -⟩
      cases rest with
      | nil => cases hy
      | cons z zs => simp [List.length_cons]
    · have := ih pp h
      simp only [List.length_cons]
      omega

/-- Lists of at most one element emit no pairs. -/
theorem allPairs_short {α : Type} (l : List α) (h : l.length ≤ 1) :
    allPairs l = [] := by
  cases l with
  | nil => rfl
  | cons x rest =>
    cases rest with
    | nil => rfl
    | cons y ys => simp [List.length_cons] at h

/-- Filtering by a weaker predicate keeps at least as many elements. -/
theorem length_filter_mono {α : Type} {p q : α → Bool}
    (h : ∀ x, p x = true → q x = true) :
    ∀ l : List α, (l.filter p).length ≤ (l.filter q).length := by
  intro l
  induction l with
  | nil => simp
  | cons x rest ih =>
    by_cases hx : p x = true
    · rw [List.filter_cons, if_pos hx, List.filter_cons, if_pos (h x hx)]
      simpa using ih
    · rw [List.filter_cons, if_neg hx, List.filter_cons]
      by_cases hq : q x = true
      · rw [if_pos hq]
        simp only [List.length_cons]
        omega
      · rw [if_neg hq]
        exact ih

/-- `values_seen` never has more items than the group it deduplicates. -/
theorem values_seen_length (cs : List Claim) :
    (values_seen cs).length ≤ cs.length := by
  simpa using values_seen_aux_length cs []

/-! ## Loop-to-`filterMap` characterizations of the detectors -/

/-- A fold that conditionally appends singletons is a `filterMap`
(propositional-condition version). -/
theorem foldl_cond_append_prop {α β : Type} (P : α → Prop) [DecidablePred P]
    (f : α → β) :
    ∀ (l : List α) (acc : List β),
      l.foldl (fun a x => if P x then a ++ [f x] else a) acc =
        acc ++ l.filterMap (fun x => if P x then some (f x) else none) := by
  intro l
  induction l with
  | nil => intro acc; simp
  | cons x rest ih =>
    intro acc
    by_cases h : P x
    · simp [h, ih, List.filterMap_cons]
    · simp [h, ih, List.filterMap_cons]

/-- `_logic_juror` emits exactly one verdict per accepted pair, in pair
order, and drops rejected pairs. -/
theorem logic_juror_eq (score : String → String → ℚ × ℚ × ℚ) (threshold : ℚ)
    (pairs : List (Claim × Claim)) :
    logic_juror score threshold pairs =
      pairs.filterMap (fun p =>
        let scores := score (claim_to_text p.1) (claim_to_text p.2)
        let delta := scores.1 - scores.2.1
        if delta ≥ threshold then some (mkScoredResult p.1 p.2 delta) else none) := by
  have haux : ∀ (l : List (Claim × Claim)) (acc : List ContradictionResult),
      l.foldl
        (fun acc p =>
          let scores := score (claim_to_text p.1) (claim_to_text p.2)
          let delta := scores.1 - scores.2.1
          if delta ≥ threshold then acc ++ [mkScoredResult p.1 p.2 delta] else acc)
        acc =
      acc ++ l.filterMap (fun p =>
        let scores := score (claim_to_text p.1) (claim_to_text p.2)
        let delta := scores.1 - scores.2.1
        if delta ≥ threshold then some (mkScoredResult p.1 p.2 delta) else none) := by
    intro l
    induction l with
    | nil => intro acc; simp
    | cons p rest ih =>
      intro acc
      by_cases h : (score (claim_to_text p.1) (claim_to_text p.2)).1 -
          (score (claim_to_text p.1) (claim_to_text p.2)).2.1 ≥ threshold
      · simp only [List.foldl_cons, List.filterMap_cons, if_pos h, ih]
        simp
      · simp only [List.foldl_cons, List.filterMap_cons, if_neg h, ih]
  simpa using haux pairs []

/-- `SimplifiedContradictionDetector.detect`, characterized: within each
`(entity, attribute)` group, one verdict per opposing `i < j` pair of
deduplicated value items (the under-two-claims guard is invisible because
such groups emit no pairs anyway). -/
theorem simpleDetect_eq (claims : List Claim) :
    simpleDetect claims =
      (groupByKey entityAttrKey claims).foldl
        (fun acc g =>
          acc ++ (allPairs (values_seen g.2)).filterMap (fun pp =>
            if are_contradictory pp.1.1 pp.2.1 then
              some (mkSimpleResult g.1.2 pp.1.2 pp.2.2)
            else none))
        [] := by
  rw [simpleDetect]
  refine List.foldl_ext _ _ _ ?_
  intro acc g _
  by_cases hlen : g.2.length < 2
  · rw [if_pos hlen]
    have hshort : (values_seen g.2).length ≤ 1 := by
      have := values_seen_length g.2
      omega
    rw [allPairs_short _ hshort]
    simp
  · rw [if_neg hlen]
    exact foldl_cond_append_prop _ _ _ _

/-- Provenance of every rule-based verdict: it comes from a pair of
deduplicated value items of some `(entity, attribute)` group. -/
theorem mem_simpleDetect (claims : List Claim) (r : ContradictionResult)
    (hr : r ∈ simpleDetect claims) :
    ∃ k g, (k, g) ∈ groupByKey entityAttrKey claims ∧
      ∃ pp, pp ∈ allPairs (values_seen g) ∧
        are_contradictory pp.1.1 pp.2.1 = true ∧
        r = mkSimpleResult k.2 pp.1.2 pp.2.2 := by
  rw [simpleDetect_eq] at hr
  rw [mem_foldl_append] at hr
  rcases hr with h | ⟨g, hg, hrg⟩
  · cases h
  · rcases List.mem_filterMap.mp hrg with ⟨pp, hpp, hsome⟩
    by_cases hc : are_contradictory pp.1.1 pp.2.1 = true
    · rw [if_pos hc] at hsome
      exact ⟨g.1, g.2, hg, pp, hpp, hc, (Option.some.injEq .. ▸ hsome).symm⟩
    · rw [if_neg hc] at hsome
      cases hsome

/-- Provenance of every similarity-entailment verdict: it comes from a
candidate pair of some entity group that passed both stages. -/
theorem mem_fullDetect (encode : String → List ℝ)
    (score : String → String → ℚ × ℚ × ℚ) (threshold : ℚ)
    (similarity_threshold : ℝ) (claims : List Claim) (r : ContradictionResult)
    (hr : r ∈ fullDetect encode score threshold similarity_threshold claims) :
    ∃ k g, (k, g) ∈ groupByKey entityKey claims ∧ 2 ≤ g.length ∧
      ∃ p, p ∈ semantic_filter encode similarity_threshold g ∧ p.1 ∈ g ∧
        r = mkScoredResult p.1 p.2
          ((score (claim_to_text p.1) (claim_to_text p.2)).1 -
            (score (claim_to_text p.1) (claim_to_text p.2)).2.1) := by
  rw [fullDetect] at hr
  have heq : (groupByKey entityKey claims).foldl
      (fun acc g =>
        if g.2.length < 2 then acc
        else
          let candidate_pairs := semantic_filter encode similarity_threshold g.2
          if candidate_pairs.isEmpty then acc
          else acc ++ logic_juror score threshold candidate_pairs)
      [] =
    (groupByKey entityKey claims).foldl
      (fun acc g =>
        acc ++
          (if g.2.length < 2 then []
           else
            let candidate_pairs := semantic_filter encode similarity_threshold g.2
            if candidate_pairs.isEmpty then []
            else logic_juror score threshold candidate_pairs))
      [] := by
    refine List.foldl_ext _ _ _ ?_
    intro acc g _
    by_cases hlen : g.2.length < 2
    · simp [hlen]
    · by_cases hemp : (semantic_filter encode similarity_threshold g.2).isEmpty
      · simp [hlen, hemp]
      · simp [hlen, hemp]
  rw [heq, mem_foldl_append] at hr
  rcases hr with h | ⟨g, hg, hrg⟩
  · cases h
  · by_cases hlen : g.2.length < 2
    · rw [if_pos hlen] at hrg
      cases hrg
    · rw [if_neg hlen] at hrg
      by_cases hemp : (semantic_filter encode similarity_threshold g.2).isEmpty
      · simp only [hemp, if_true] at hrg
        cases hrg
      · simp only [hemp, if_false] at hrg
        rw [logic_juror_eq] at hrg
        rcases List.mem_filterMap.mp hrg with ⟨p, hp, hsome⟩
        simp only at hsome
        by_cases hacc : (score (claim_to_text p.1) (claim_to_text p.2)).1 -
            (score (claim_to_text p.1) (claim_to_text p.2)).2.1 ≥ threshold
        · rw [if_pos hacc] at hsome
          have hpmem : p ∈ allPairs g.2 := by
            have := hp
            rw [semantic_filter, if_neg hlen] at this
            exact List.mem_of_mem_filter this
          have hp1 : p.1 ∈ g.2 := by
            obtain ⟨a, b⟩ := p
            exact (mem_allPairs _ _ _ hpmem).1
          exact ⟨g.1, g.2, hg, by omega, p, hp, hp1,
            (Option.some.injEq .. ▸ hsome).symm⟩
        · rw [if_neg hacc] at hsome
          cases hsome

/-! ## Derived `values_seen` facts and opposition facts -/

/-- An item of `values_seen` is the first claim of the list holding its
normalized value, and its key is that claim's normalized value. -/
theorem values_seen_spec (cs : List Claim) (k : String) (c : Claim)
    (h : (k, c) ∈ values_seen cs) :
    cs.find? (fun c' => valueKey c' == k) = some c ∧ valueKey c = k ∧ c ∈ cs := by
  rcases values_seen_aux_mem cs [] k c h with hnil | ⟨-, hfind⟩
  · cases hnil
  · refine ⟨hfind, ?_, List.mem_of_find?_eq_some hfind⟩
    have := List.find?_some hfind
    rwa [beq_iff_eq] at this

/-- The keys of `values_seen` are duplicate-free: one representative per
distinct normalized value. -/
theorem values_seen_nodup (cs : List Claim) :
    ((values_seen cs).map Prod.fst).Nodup :=
  values_seen_aux_nodup cs [] (by simp)

/-- Every claim's normalized value is represented in `values_seen`. -/
theorem values_seen_complete (cs : List Claim) (c : Claim) (h : c ∈ cs) :
    ∃ c', (valueKey c, c') ∈ values_seen cs := by
  have hmem := values_seen_aux_complete cs [] c h
  rcases List.mem_map.mp hmem with ⟨⟨k', c'⟩, hp, hk⟩
  simp only at hk
  subst hk
  exact ⟨c', hp⟩

/-- Values judged contradictory are never equal after normalization. -/
theorem are_contradictory_ne (v1 v2 : String)
    (h : are_contradictory v1 v2 = true) :
    pyStrip (pyLower v1) ≠ pyStrip (pyLower v2) := by
  intro heq
  simp only [are_contradictory] at h
  rw [if_pos heq] at h
  cases h

/-! ## Time-context helper lemmas -/

/-- A successful `\s+([IVX\d]+)\b` match captures a non-empty numeral
token made of `[IVX\d]` characters. -/
theorem matchNumAt_some (l num : List Char) (h : matchNumAt l = some num) :
    num ≠ [] ∧ ∀ c ∈ num, isNumTokenChar c = true := by
  simp only [matchNumAt] at h
  by_cases hws : l.takeWhile Char.isWhitespace = []
  · rw [if_pos hws] at h
    cases h
  · rw [if_neg hws] at h
    by_cases hnum : (l.dropWhile Char.isWhitespace).takeWhile isNumTokenChar = []
    · rw [if_pos hnum] at h
      cases h
    · rw [if_neg hnum] at h
      have hgoal :
          num = (l.dropWhile Char.isWhitespace).takeWhile isNumTokenChar := by
        rcases hmatch : (l.dropWhile Char.isWhitespace).dropWhile isNumTokenChar with
          _ | ⟨c, cs⟩
        · rw [hmatch] at h
          exact (Option.some.injEq .. ▸ h).symm
        · rw [hmatch] at h
          have h' : (if isWordChar c = true then (none : Option (List Char))
              else some ((l.dropWhile Char.isWhitespace).takeWhile isNumTokenChar)) =
              some num := h
          by_cases hw : isWordChar c = true
          · rw [if_pos hw] at h'
            cases h'
          · rw [if_neg hw] at h'
            exact (Option.some.injEq .. ▸ h').symm
      subst hgoal
      exact ⟨hnum, fun c hc => List.mem_takeWhile_imp hc⟩

/-- A successful keyword search yields a token matched by `matchNumAt`. -/
theorem searchKeywordAux_some (kw : List Char) :
    ∀ (l : List Char) (b : Bool) (num : List Char),
      searchKeywordAux kw l b = some num → ∃ l', matchNumAt l' = some num := by
  intro l
  induction l with
  | nil => intro b num h; cases h
  | cons c rest ih =>
    intro b num h
    rw [searchKeywordAux] at h
    rcases hhead : (if b then none
        else (ciPrefixDrop kw (c :: rest)).bind matchNumAt) with _ | num'
    · rw [hhead] at h
      exact ih (isWordChar c) num h
    · rw [hhead] at h
      have hnum : num' = num := Option.some.injEq .. ▸ h
      subst hnum
      by_cases hb : b
      · rw [if_pos hb] at hhead
        cases hhead
      · rw [if_neg hb] at hhead
        rcases Option.bind_eq_some.mp hhead with ⟨mid, -, hmid⟩
        exact ⟨mid, hmid⟩

/-- `findSome?` succeeds through some member of the list. -/
theorem findSome_mem {α β : Type} (f : α → Option β) :
    ∀ (l : List α) (b : β), l.findSome? f = some b → ∃ a ∈ l, f a = some b := by
  intro l
  induction l with
  | nil => intro b h; cases h
  | cons a rest ih =>
    intro b h
    rw [List.findSome?_cons] at h
    rcases ha : f a with _ | b'
    · rw [ha] at h
      rcases ih b h with ⟨a', ha', hfa'⟩
      exact ⟨a', List.mem_cons_of_mem _ ha', hfa'⟩
    · rw [ha] at h
      exact ⟨a, List.mem_cons_self _ _, ha ▸ h⟩

/-- A detected time context names a temporal keyword, title-cased,
followed by a non-empty Roman-numeral-or-digit token. -/
theorem detect_time_context_shape (text : String) (ctx : String)
    (h : detect_time_context text = some ctx) :
    ∃ kw ∈ TEMPORAL_KEYWORDS, ∃ num : List Char, num ≠ [] ∧
      (∀ c ∈ num, isNumTokenChar c = true) ∧
      ctx = pyTitle kw ++ " " ++ String.mk num := by
  rcases findSome_mem _ _ _ h with ⟨kw, hkw, hfkw⟩
  rcases hsearch : searchKeywordAux kw.toList text.toList false with _ | num
  · rw [Option.map_eq_some'] at hfkw
    rcases hfkw with ⟨num, hnum, -⟩
    rw [hsearch] at hnum
    cases hnum
  · rw [Option.map_eq_some'] at hfkw
    rcases hfkw with ⟨num', hnum', hctx⟩
    rw [hsearch] at hnum'
    have : num = num' := Option.some.injEq .. ▸ hnum'
    subst this
    rcases searchKeywordAux_some _ _ _ _ hsearch with ⟨l', hl'⟩
    obtain ⟨hne, hall⟩ := matchNumAt_some l' num hl'
    exact ⟨kw, hkw, num, hne, hall, hctx.symm⟩

/-! ## Extractor claim-construction lemmas -/

/-- Every claim built by the matcher loop carries the supplied context,
chunk id and the fixed confidence, and quotes the stripped sentence. -/
theorem mem_runMatcher (matcher : String → List (String × String × String))
    (ctx : String) (chunk_id : Nat) (sent : String) (cl : Claim)
    (h : cl ∈ runMatcher matcher ctx chunk_id sent) :
    cl.time_context = ctx ∧ cl.confidence = SIMPLE_EXTRACTION_CONFIDENCE ∧
      cl.chunk_id = chunk_id ∧ cl.source_text = pyStrip sent := by
  have heq : runMatcher matcher ctx chunk_id sent =
      (matcher sent).filterMap (fun eav =>
        if is_likely_name eav.1 then
          some { entity := eav.1, attr := eav.2.1, value := eav.2.2,
                 time_context := ctx, source_text := pyStrip sent,
                 chunk_id := chunk_id,
                 confidence := SIMPLE_EXTRACTION_CONFIDENCE }
        else none) := by
    rw [runMatcher]
    have hfm := foldl_cond_append_prop
      (fun eav : String × String × String => is_likely_name eav.1 = true)
      (fun eav => ({ entity := eav.1, attr := eav.2.1, value := eav.2.2,
                     time_context := ctx, source_text := pyStrip sent,
                     chunk_id := chunk_id,
                     confidence := SIMPLE_EXTRACTION_CONFIDENCE } : Claim))
      (matcher sent) []
    simpa using hfm
  rw [heq] at h
  rcases List.mem_filterMap.mp h with ⟨eav, -, hsome⟩
  by_cases hname : is_likely_name eav.1 = true
  · rw [if_pos hname] at hsome
    have := Option.some.injEq .. ▸ hsome
    subst this
    exact ⟨rfl, rfl, rfl, rfl⟩
  · rw [if_neg hname] at hsome
    cases hsome

/-- The extractor returns the updated context, and every extracted claim
carries it. -/
theorem extract_from_chunk_ctx
    (matcher : String → List (String × String × String)) (text : String)
    (chunk_id : Nat) (tc : Option String) (cur : String) :
    (extract_from_chunk matcher text chunk_id tc cur).2 =
      update_time_context tc text cur ∧
    ∀ cl ∈ (extract_from_chunk matcher text chunk_id tc cur).1,
      cl.time_context = update_time_context tc text cur ∧
      cl.confidence = SIMPLE_EXTRACTION_CONFIDENCE ∧ cl.chunk_id = chunk_id := by
  refine ⟨rfl, ?_⟩
  intro cl hcl
  have heq : (extract_from_chunk matcher text chunk_id tc cur).1 =
      (splitSentenceSegments text).foldl
        (fun acc sent =>
          acc ++ (if (pyStrip sent).length < 10 then []
            else runMatcher matcher (update_time_context tc text cur) chunk_id sent))
        [] := by
    rw [extract_from_chunk]
    refine List.foldl_ext _ _ _ ?_
    intro acc sent _
    by_cases hshort : (pyStrip sent).length < 10
    · simp [hshort]
    · simp [hshort]
  rw [heq, mem_foldl_append] at hcl
  rcases hcl with h | ⟨sent, -, hsent⟩
  · cases h
  · by_cases hshort : (pyStrip sent).length < 10
    · rw [if_pos hshort] at hsent
      cases hsent
    · rw [if_neg hshort] at hsent
      obtain ⟨h1, h2, h3, -⟩ := mem_runMatcher _ _ _ _ _ hsent
      exact ⟨h1, h2, h3⟩

/-! ## Claim theorems -/

/-- C1 (counterexample): the claim's opposition test fails on the code.
The lowercase-trimmed values `"is alive"` and `"dead"` are distinct, and
`"is alive"` contains the member `"alive"` while `"dead"` contains
`"dead"`, so the claim says the pair is judged opposing; the code judges
it non-opposing, because it tests the reverse containment
(`v1 in pair[0]`). -/
theorem c1_counterexample :
    are_contradictory "is alive" "dead" = false ∧
    pyStrip (pyLower "is alive") = "is alive" ∧
    pyStrip (pyLower "dead") = "dead" ∧
    "is alive" ≠ "dead" ∧
    (∃ p ∈ opposing_pairs, pyIn p.1 "is alive" = true ∧ pyIn p.2 "dead" = true) := by
  refine ⟨by decide, by decide, by decide, by decide, ?_⟩
  exact ⟨("alive", "dead"), by decide, by decide, by decide⟩

/-- C1 (amended): for distinct lowercase-trimmed values `v1`, `v2`, the
pair is judged opposing iff, for some pair `{x, y}` of the fixed table,
one value is contained as a substring *in* `x` and the other is contained
in `y` (in either assignment) — the containment direction is reversed
with respect to the claim. -/
theorem c1_amended_opposition (v1 v2 : String)
    (h1 : pyStrip (pyLower v1) = v1) (h2 : pyStrip (pyLower v2) = v2)
    (hne : v1 ≠ v2) :
    are_contradictory v1 v2 = true ↔
      ∃ p ∈ opposing_pairs,
        (pyIn v1 p.1 = true ∧ pyIn v2 p.2 = true) ∨
        (pyIn v1 p.2 = true ∧ pyIn v2 p.1 = true) := by
  simp only [are_contradictory, h1, h2, if_neg hne, List.any_eq_true,
    Bool.or_eq_true, Bool.and_eq_true]

/-- C1 witness: the amended opposition test at `("alive", "dead")`. -/
theorem c1_witness :
    pyStrip (pyLower "alive") = "alive" ∧ "alive" ≠ "dead" ∧
    are_contradictory "alive" "dead" = true :=
  ⟨by decide, by decide,
    (c1_amended_opposition "alive" "dead" (by decide) (by decide)
      (by decide)).mpr ⟨("alive", "dead"), by decide, Or.inl ⟨by decide, by decide⟩⟩⟩

/-- C2: for every candidate pair, with the entailment scorer returning
`(contradiction, entailment, neutral)`, the logic juror computes
`delta = contradiction − entailment` and emits exactly one verdict for
the pair iff `delta ≥ threshold` (inclusive at the boundary); the verdict
carries both claims' values, time contexts, source texts, confidences and
that delta, and pairs below threshold produce no output. Scenario E: with
scores `(0.5, 0.2, 0.3)` and threshold `0.5`, `delta = 0.3` and no
verdict is produced. -/
theorem c2_logic_juror_threshold :
    (∀ (score : String → String → ℚ × ℚ × ℚ) (threshold : ℚ)
        (pairs : List (Claim × Claim)),
      logic_juror score threshold pairs =
        pairs.filterMap (fun p =>
          let scores := score (claim_to_text p.1) (claim_to_text p.2)
          let delta := scores.1 - scores.2.1
          if delta ≥ threshold then
            some { entity := p.1.entity, attr := p.1.attr,
                   values := [p.1.value, p.2.value],
                   locations := [p.1.time_context, p.2.time_context],
                   delta := delta, verdict := "CONTRADICTION",
                   source_texts := [p.1.source_text, p.2.source_text],
                   confidence_scores := [p.1.confidence, p.2.confidence] }
          else none)) ∧
    (∀ pair : Claim × Claim,
      logic_juror (fun _ _ => (0.5, 0.2, 0.3)) 0.5 [pair] = []) := by
  refine ⟨fun score threshold pairs => logic_juror_eq score threshold pairs, ?_⟩
  intro pair
  have hlt : ¬ ((0.5 : ℚ) - 0.2 ≥ 0.5) := by norm_num
  simp only [logic_juror, List.foldl_cons, List.foldl_nil, if_neg hlt]

/-- C3: rule-based detection. (1) The detector emits, within each
`(entity, attribute)` group, exactly one verdict per opposing `i < j`
pair of deduplicated value items. (2) Every verdict has `delta = 1.0`,
verdict `CONTRADICTION`, and two values that differ after normalization
(equal values never yield a verdict). (3) Scenario A: the two
Lord Edmund claims produce exactly one verdict with values
`("alive", "dead")` and `delta = 1.0`. -/
theorem c3_rule_based_detection :
    (∀ claims : List Claim,
      simpleDetect claims =
        (groupByKey entityAttrKey claims).foldl
          (fun acc g =>
            acc ++ (allPairs (values_seen g.2)).filterMap (fun pp =>
              if are_contradictory pp.1.1 pp.2.1 then
                some (mkSimpleResult g.1.2 pp.1.2 pp.2.2)
              else none))
          []) ∧
    (∀ claims : List Claim, ∀ r ∈ simpleDetect claims,
      r.delta = 1.0 ∧ r.verdict = "CONTRADICTION" ∧
      ∃ v1 v2, r.values = [v1, v2] ∧
        pyStrip (pyLower v1) ≠ pyStrip (pyLower v2)) ∧
    simpleDetect [edmundAlive, edmundDead] =
      [{ entity := "Lord Edmund", attr := "alive", values := ["alive", "dead"],
         locations := ["Ch1", "Ch5"], delta := 1.0, verdict := "CONTRADICTION",
         source_texts := ["Lord Edmund was alive.", "Lord Edmund had died."],
         confidence_scores := [0.95, 0.92] }] := by
  refine ⟨simpleDetect_eq, ?_, rfl⟩
  intro claims r hr
  obtain ⟨k, g, hg, pp, hpp, hc, rfl⟩ := mem_simpleDetect claims r hr
  obtain ⟨⟨k1, c1⟩, ⟨k2, c2⟩⟩ := pp
  refine ⟨rfl, rfl, c1.value, c2.value, rfl, ?_⟩
  obtain ⟨hm1, hm2⟩ := mem_allPairs _ _ _ hpp
  have hs1 := values_seen_spec g k1 c1 hm1
  have hs2 := values_seen_spec g k2 c2 hm2
  have hkne : k1 ≠ k2 := by
    intro he
    exact are_contradictory_ne k1 k2 hc (by rw [he])
  show valueKey c1 ≠ valueKey c2
  rw [hs1.2.1, hs2.2.1]
  exact hkne

/-- C3 witness: the Scenario A verdict is in the detector's output and
satisfies the per-verdict properties. -/
theorem c3_witness :
    ({ entity := "Lord Edmund", attr := "alive", values := ["alive", "dead"],
       locations := ["Ch1", "Ch5"], delta := 1.0, verdict := "CONTRADICTION",
       source_texts := ["Lord Edmund was alive.", "Lord Edmund had died."],
       confidence_scores := [0.95, 0.92] } : ContradictionResult) ∈
        simpleDetect [edmundAlive, edmundDead] ∧
    (1.0 : ℚ) = 1.0 ∧ "CONTRADICTION" = "CONTRADICTION" := by
  have hmem : ({ entity := "Lord Edmund", attr := "alive",
                 values := ["alive", "dead"], locations := ["Ch1", "Ch5"],
                 delta := 1.0, verdict := "CONTRADICTION",
                 source_texts := ["Lord Edmund was alive.",
                   "Lord Edmund had died."],
                 confidence_scores := [0.95, 0.92] } : ContradictionResult) ∈
      simpleDetect [edmundAlive, edmundDead] := List.mem_singleton_self _
  have h := c3_rule_based_detection.2.1 [edmundAlive, edmundDead] _ hmem
  exact ⟨hmem, h.1 ▸ rfl, h.2.1 ▸ rfl⟩

/-- C4: within each `(entity, attribute)` group the detector keeps, for
each distinct normalized value, only the first claim in input order:
keys are duplicate-free, each kept item is the `find?`-first claim with
its value, every claim's value is represented, and every emitted
verdict's provenance (values, time contexts, source texts, confidences)
comes from two such first-kept claims of its group. -/
theorem c4_first_claim_dedup :
    (∀ cs : List Claim,
      ((values_seen cs).map Prod.fst).Nodup ∧
      (∀ k c, (k, c) ∈ values_seen cs →
        valueKey c = k ∧ cs.find? (fun c' => valueKey c' == k) = some c) ∧
      (∀ c ∈ cs, ∃ c', (valueKey c, c') ∈ values_seen cs)) ∧
    (∀ claims : List Claim, ∀ r ∈ simpleDetect claims,
      ∃ k g c1 c2, (k, g) ∈ groupByKey entityAttrKey claims ∧
        g.find? (fun c' => valueKey c' == valueKey c1) = some c1 ∧
        g.find? (fun c' => valueKey c' == valueKey c2) = some c2 ∧
        r.values = [c1.value, c2.value] ∧
        r.locations = [c1.time_context, c2.time_context] ∧
        r.source_texts = [c1.source_text, c2.source_text] ∧
        r.confidence_scores = [c1.confidence, c2.confidence]) := by
  constructor
  · intro cs
    refine ⟨values_seen_nodup cs, ?_, fun c hc => values_seen_complete cs c hc⟩
    intro k c h
    have hs := values_seen_spec cs k c h
    exact ⟨hs.2.1, hs.1⟩
  · intro claims r hr
    obtain ⟨k, g, hg, pp, hpp, -, rfl⟩ := mem_simpleDetect claims r hr
    obtain ⟨⟨k1, c1⟩, ⟨k2, c2⟩⟩ := pp
    obtain ⟨hm1, hm2⟩ := mem_allPairs _ _ _ hpp
    have hs1 := values_seen_spec g k1 c1 hm1
    have hs2 := values_seen_spec g k2 c2 hm2
    refine ⟨k, g, c1, c2, hg, ?_, ?_, rfl, rfl, rfl, rfl⟩
    · rw [hs1.2.1]
      exact hs1.1
    · rw [hs2.2.1]
      exact hs2.1

/-- C4 witness: on the Scenario A input, the kept item for value
`"alive"` is the first claim, and it is `find?`-first in the list. -/
theorem c4_witness :
    ("alive", edmundAlive) ∈ values_seen [edmundAlive, edmundDead] ∧
    [edmundAlive, edmundDead].find? (fun c' => valueKey c' == "alive") =
      some edmundAlive := by
  have hmem : ("alive", edmundAlive) ∈ values_seen [edmundAlive, edmundDead] :=
    List.mem_cons_self _ _
  have h := (c4_first_claim_dedup.1 [edmundAlive, edmundDead]).2.1
    "alive" edmundAlive hmem
  exact ⟨hmem, h.2⟩

/-- C5 (code defect witnessed): when a physical read block ends exactly
after an abbreviation's period, the carry-over check
`text_chunk.rstrip().endswith(('.', '!', '?', '"', "'"))` treats the
abbreviation fragment as a complete sentence, and a buffer flush there
yields a chunk boundary immediately after the abbreviation's period —
here the first chunk ends `... He met Dr.` and `Smith arrived.` lands in
the next chunk. The same text read as one block stays together, so the
split is caused purely by block placement. -/
theorem c5_abbreviation_split_bug :
    stream_chunks
        ["Aa bb cc dd. Bb cc dd ee. Cc dd ee ff. Dd ee ff gg. He met Dr.",
         " Smith arrived."] =
      ["Aa bb cc dd. Bb cc dd ee. Cc dd ee ff. Dd ee ff gg. He met Dr.",
       "Smith arrived."] ∧
    pyEndsWith
      "Aa bb cc dd. Bb cc dd ee. Cc dd ee ff. Dd ee ff gg. He met Dr."
      "Dr." = true ∧
    is_abbreviation
      "Aa bb cc dd. Bb cc dd ee. Cc dd ee ff. Dd ee ff gg. He met Dr." = true ∧
    stream_chunks
        ["Aa bb cc dd. Bb cc dd ee. Cc dd ee ff. Dd ee ff gg. He met Dr. Smith arrived."] =
      ["Aa bb cc dd. Bb cc dd ee. Cc dd ee ff. Dd ee ff gg. He met Dr. Smith arrived."] := by
  exact ⟨by decide, by decide, by decide, by decide⟩

/-- C6 (counterexample): the spec's per-*occurrence* penalty disagrees
with the code. In `"maybe maybe Edmund died"` the word `maybe` occurs
twice, so the claim's formula yields `1.0 − 2·0.3 = 0.4`, but the code's
`marker in text` test subtracts `0.3` once, giving `0.7`. -/
theorem c6_counterexample :
    calculate_confidence "maybe maybe Edmund died" = 0.7 ∧
    spec_confidence "maybe maybe Edmund died" = 0.4 ∧
    countOccurrences "maybe" (pyLower "maybe maybe Edmund died") = 2 ∧
    calculate_confidence "maybe maybe Edmund died" ≠
      spec_confidence "maybe maybe Edmund died" := by
  have h1 : calculate_confidence "maybe maybe Edmund died" = 0.7 := by
    simp +decide only [calculate_confidence, uncertainty_markers,
      metaphor_markers, List.foldl]
    norm_num
  have h2 : spec_confidence "maybe maybe Edmund died" = 0.4 := by
    have e1 : countOccurrences "maybe" (pyLower "maybe maybe Edmund died") = 2 := by
      decide
    have e2 : countOccurrences "perhaps" (pyLower "maybe maybe Edmund died") = 0 := by
      decide
    have e3 : countOccurrences "possibly" (pyLower "maybe maybe Edmund died") = 0 := by
      decide
    have e4 : countOccurrences "might" (pyLower "maybe maybe Edmund died") = 0 := by
      decide
    have e5 : countOccurrences "could" (pyLower "maybe maybe Edmund died") = 0 := by
      decide
    have e6 : countOccurrences "seemed" (pyLower "maybe maybe Edmund died") = 0 := by
      decide
    have e7 : countOccurrences "like" (pyLower "maybe maybe Edmund died") = 0 := by
      decide
    have e8 : countOccurrences "as if" (pyLower "maybe maybe Edmund died") = 0 := by
      decide
    have e9 : countOccurrences "metaphorically" (pyLower "maybe maybe Edmund died") = 0 := by
      decide
    have e10 : countOccurrences "figuratively" (pyLower "maybe maybe Edmund died") = 0 := by
      decide
    simp +decide only [spec_confidence, uncertainty_markers, metaphor_markers,
      List.map, List.sum_cons, List.sum_nil, e1, e2, e3, e4, e5, e6, e7, e8,
      e9, e10]
    norm_num
  refine ⟨h1, h2, by decide, ?_⟩
  rw [h1, h2]
  norm_num

/-- C6 (amended): the richer extractor's confidence starts at 1.0 and
subtracts 0.3 once for each uncertainty word occurring (at least once) as
a substring of the lowercased sentence, 0.4 once for each metaphor
marker so occurring, and 0.5 for a trailing question mark, then clamps to
[0,1]; the rule-based extractor's confidence is the fixed constant 0.8. -/
theorem c6_amended_confidence :
    (∀ text : String,
      calculate_confidence text =
        max 0.0 (min 1.0
          (1.0 -
            0.3 * (((uncertainty_markers.filter
              fun m => pyIn m (pyLower text)).length : ℚ)) -
            0.4 * (((metaphor_markers.filter
              fun m => pyIn m (pyLower text)).length : ℚ)) -
            (if pyEndsWith (pyStrip text) "?" then 0.5 else 0)))) ∧
    (∀ (matcher : String → List (String × String × String)) text chunk_id tc cur,
      ∀ cl ∈ (extract_from_chunk matcher text chunk_id tc cur).1,
        cl.confidence = 0.8) := by
  constructor
  · intro text
    simp only [calculate_confidence]
    rw [foldl_if_sub, foldl_if_sub]
    by_cases h : pyEndsWith (pyStrip text) "?" = true
    · rw [if_pos h, if_pos h]
    · rw [if_neg h, if_neg h, sub_zero]
  · intro matcher text chunk_id tc cur cl hcl
    exact ((extract_from_chunk_ctx matcher text chunk_id tc cur).2 cl hcl).2.1

/-- C6 witness: a concrete extraction carries the fixed confidence. -/
theorem c6_witness :
    ({ entity := "Edmund", attr := "alive", value := "dead",
       time_context := "Unknown", source_text := "Edmund was dead in winter",
       chunk_id := 0, confidence := 0.8 } : Claim) ∈
      (extract_from_chunk (fun _ => [("Edmund", "alive", "dead")])
        "Edmund was dead in winter" 0 none "Unknown").1 ∧
    ({ entity := "Edmund", attr := "alive", value := "dead",
       time_context := "Unknown", source_text := "Edmund was dead in winter",
       chunk_id := 0, confidence := 0.8 } : Claim).confidence = 0.8 ∧
    calculate_confidence "It rained" = 1.0 := by
  have hmem : ({ entity := "Edmund", attr := "alive", value := "dead",
                 time_context := "Unknown",
                 source_text := "Edmund was dead in winter",
                 chunk_id := 0, confidence := 0.8 } : Claim) ∈
      (extract_from_chunk (fun _ => [("Edmund", "alive", "dead")])
        "Edmund was dead in winter" 0 none "Unknown").1 :=
    List.mem_cons_self _ _
  refine ⟨hmem, c6_amended_confidence.2 (fun _ => [("Edmund", "alive", "dead")])
    "Edmund was dead in winter" 0 none "Unknown" _ hmem, ?_⟩
  have h := c6_amended_confidence.1 "It rained"
  rw [h]
  have hq : pyEndsWith (pyStrip "It rained") "?" = false := by decide
  have hu : uncertainty_markers.filter
      (fun m => pyIn m (pyLower "It rained")) = [] := by decide
  have hm : metaphor_markers.filter
      (fun m => pyIn m (pyLower "It rained")) = [] := by decide
  rw [hq, hu, hm]
  norm_num

/-- C7: every confidence the extractors can attach is within [0,1]: the
richer extractor's `_calculate_confidence` is clamped for every sentence,
and the rule-based extractor's claims carry the constant 0.8. -/
theorem c7_confidence_bound :
    ∀ text : String,
      0.0 ≤ calculate_confidence text ∧ calculate_confidence text ≤ 1.0 ∧
      ∀ (matcher : String → List (String × String × String)) chunk_id tc cur,
        ∀ cl ∈ (extract_from_chunk matcher text chunk_id tc cur).1,
          0.0 ≤ cl.confidence ∧ cl.confidence ≤ 1.0 := by
  intro text
  refine ⟨le_max_left _ _, max_le (by norm_num) (min_le_left _ _), ?_⟩
  intro matcher chunk_id tc cur cl hcl
  have h := ((extract_from_chunk_ctx matcher text chunk_id tc cur).2 cl hcl).2.1
  rw [h]
  constructor <;> norm_num [SIMPLE_EXTRACTION_CONFIDENCE]

/-- C7 witness: bounds at a concrete sentence and a concrete extraction. -/
theorem c7_witness :
    ({ entity := "Isabella", attr := "wealth", value := "rich",
       time_context := "Unknown", source_text := "Isabella was rich today",
       chunk_id := 1, confidence := 0.8 } : Claim) ∈
      (extract_from_chunk (fun _ => [("Isabella", "wealth", "rich")])
        "Isabella was rich today" 1 none "Unknown").1 ∧
    (0.0 ≤ calculate_confidence "maybe it rained?" ∧
      calculate_confidence "maybe it rained?" ≤ 1.0) ∧
    ((0.0 : ℚ) ≤ 0.8 ∧ (0.8 : ℚ) ≤ 1.0) := by
  have hmem : ({ entity := "Isabella", attr := "wealth", value := "rich",
                 time_context := "Unknown",
                 source_text := "Isabella was rich today",
                 chunk_id := 1, confidence := 0.8 } : Claim) ∈
      (extract_from_chunk (fun _ => [("Isabella", "wealth", "rich")])
        "Isabella was rich today" 1 none "Unknown").1 :=
    List.mem_cons_self _ _
  have hb := c7_confidence_bound "maybe it rained?"
  have hc := (c7_confidence_bound "Isabella was rich today").2.2
    (fun _ => [("Isabella", "wealth", "rich")]) 1 none "Unknown" _ hmem
  exact ⟨hmem, ⟨hb.1, hb.2.1⟩, hc⟩

/-- C8: the extractor's time context starts at the sentinel `"Unknown"`;
an explicit argument overrides it; otherwise a detected
`"<Keyword title-cased> <numeral>"` marker overrides it; otherwise the
previous context is retained (sticky); and every claim extracted from a
chunk carries the context so determined (for any pattern matcher). -/
theorem c8_sticky_time_context :
    INITIAL_TIME_CONTEXT = "Unknown" ∧
    (∀ text cur ctx, update_time_context (some ctx) text cur = ctx) ∧
    (∀ text cur, detect_time_context text = none →
      update_time_context none text cur = cur) ∧
    (∀ text cur ctx, detect_time_context text = some ctx →
      update_time_context none text cur = ctx ∧
      ∃ kw ∈ TEMPORAL_KEYWORDS, ∃ num : List Char, num ≠ [] ∧
        (∀ ch ∈ num, isNumTokenChar ch = true) ∧
        ctx = pyTitle kw ++ " " ++ String.mk num) ∧
    (∀ (matcher : String → List (String × String × String)) text chunk_id tc cur,
      (extract_from_chunk matcher text chunk_id tc cur).2 =
        update_time_context tc text cur ∧
      ∀ cl ∈ (extract_from_chunk matcher text chunk_id tc cur).1,
        cl.time_context = update_time_context tc text cur) := by
  refine ⟨rfl, fun text cur ctx => rfl, ?_, ?_, ?_⟩
  · intro text cur h
    simp [update_time_context, h]
  · intro text cur ctx h
    exact ⟨by simp [update_time_context, h], detect_time_context_shape text ctx h⟩
  · intro matcher text chunk_id tc cur
    have h := extract_from_chunk_ctx matcher text chunk_id tc cur
    exact ⟨h.1, fun cl hcl => (h.2 cl hcl).1⟩

/-- C8 witness: stickiness on a marker-free chunk and override on a
chunk containing `Chapter 5`. -/
theorem c8_witness :
    detect_time_context "The rain stopped" = none ∧
    update_time_context none "The rain stopped" "Chapter II" = "Chapter II" ∧
    detect_time_context "Then Chapter 5 began" = some "Chapter 5" ∧
    update_time_context none "Then Chapter 5 began" "Act I" = "Chapter 5" := by
  refine ⟨by decide, c8_sticky_time_context.2.2.1 _ "Chapter II" (by decide),
    by decide, (c8_sticky_time_context.2.2.2.1 _ "Act I" _ (by decide)).1⟩

/-- C9: both detectors map the empty claim list to the empty verdict
list, and an entity with fewer than two claims (under the respective
detector's entity normalization) contributes no verdict. -/
theorem c9_minimum_two_claims :
    simpleDetect [] = [] ∧
    (∀ (encode : String → List ℝ) (score : String → String → ℚ × ℚ × ℚ)
        (threshold : ℚ) (similarity_threshold : ℝ),
      fullDetect encode score threshold similarity_threshold [] = []) ∧
    (∀ (claims : List Claim) (e : String),
      (claims.filter (fun c => pyLower c.entity == e)).length < 2 →
        ∀ r ∈ simpleDetect claims, pyLower r.entity ≠ e) ∧
    (∀ (encode : String → List ℝ) (score : String → String → ℚ × ℚ × ℚ)
        (threshold : ℚ) (similarity_threshold : ℝ) (claims : List Claim)
        (e : String),
      (claims.filter (fun c => pyStrip (pyLower c.entity) == e)).length < 2 →
        ∀ r ∈ fullDetect encode score threshold similarity_threshold claims,
          pyStrip (pyLower r.entity) ≠ e) := by
  refine ⟨rfl, fun _ _ _ _ => rfl, ?_, ?_⟩
  · intro claims e hcount r hr
    obtain ⟨k, g, hg, pp, hpp, -, rfl⟩ := mem_simpleDetect claims r hr
    obtain ⟨⟨k1, c1⟩, ⟨k2, c2⟩⟩ := pp
    intro he
    have he' : pyLower c1.entity = e := he
    obtain ⟨hm1, -⟩ := mem_allPairs _ _ _ hpp
    have hc1g : c1 ∈ g := (values_seen_spec g k1 c1 hm1).2.2
    have hkey := groupByKey_mem_claims entityAttrKey claims k g hg c1 hc1g
    have hk1 : k.1 = e := by
      rw [← hkey.1]
      exact he'
    have hglen : 2 ≤ g.length :=
      le_trans (mem_allPairs_length _ _ hpp) (values_seen_length g)
    have hgeq := (groupByKey_char entityAttrKey claims).2.2 k g hg
    rw [hgeq] at hglen
    have hmono : (claims.filter (fun y => decide (entityAttrKey y = k))).length ≤
        (claims.filter (fun c => pyLower c.entity == e)).length := by
      apply length_filter_mono
      intro x hx
      rw [decide_eq_true_eq] at hx
      rw [beq_iff_eq]
      rw [← hk1, ← hx]
      rfl
    have hfinal := le_trans hglen hmono
    omega
  · intro encode score threshold similarity_threshold claims e hcount r hr
    obtain ⟨k, g, hg, -, p, hp, hp1, rfl⟩ :=
      mem_fullDetect encode score threshold similarity_threshold claims r hr
    intro he
    have he' : pyStrip (pyLower p.1.entity) = e := he
    have hkey := groupByKey_mem_claims entityKey claims k g hg p.1 hp1
    have hk : k = e := by
      rw [← hkey.1]
      exact he'
    have hglen : 2 ≤ g.length := by
      have hpmem : p ∈ allPairs g := by
        rw [semantic_filter] at hp
        by_cases hlen : g.length < 2
        · rw [if_pos hlen] at hp
          cases hp
        · rw [if_neg hlen] at hp
          exact List.mem_of_mem_filter hp
      exact mem_allPairs_length _ _ hpmem
    have hgeq := (groupByKey_char entityKey claims).2.2 k g hg
    rw [hgeq] at hglen
    have hmono : (claims.filter (fun y => decide (entityKey y = k))).length ≤
        (claims.filter (fun c => pyStrip (pyLower c.entity) == e)).length := by
      apply length_filter_mono
      intro x hx
      rw [decide_eq_true_eq] at hx
      rw [beq_iff_eq]
      rw [← hk, ← hx]
      rfl
    have hfinal := le_trans hglen hmono
    omega

/-- C9 witness: a single claim for one entity yields no verdict about it
in either detector. -/
theorem c9_witness :
    ([edmundAlive].filter (fun c => pyLower c.entity == "lord edmund")).length
        < 2 ∧
    (∀ r ∈ simpleDetect [edmundAlive], pyLower r.entity ≠ "lord edmund") ∧
    (∀ r ∈ fullDetect (fun _ => [(1 : ℝ)]) (fun _ _ => (1, 0, 0)) 0.5 0.6
        [edmundAlive], pyStrip (pyLower r.entity) ≠ "lord edmund") := by
  refine ⟨?_, ?_, ?_⟩
  · decide
  · exact c9_minimum_two_claims.2.2.1 [edmundAlive] "lord edmund" (by decide)
  · exact c9_minimum_two_claims.2.2.2 (fun _ => [(1 : ℝ)]) (fun _ _ => (1, 0, 0))
      0.5 0.6 [edmundAlive] "lord edmund" (by decide)

/-- C10: the cosine-similarity helper is total: a zero norm on either
side short-circuits to 0 before the division, and otherwise the result
is the dot product over the (nonzero) product of norms. -/
theorem c10_cosine_similarity_guard (v1 v2 : List ℝ) :
    (vecNorm v1 = 0 ∨ vecNorm v2 = 0 → cosine_similarity v1 v2 = 0) ∧
    (vecNorm v1 ≠ 0 → vecNorm v2 ≠ 0 →
      vecNorm v1 * vecNorm v2 ≠ 0 ∧
      cosine_similarity v1 v2 =
        dotProduct v1 v2 / (vecNorm v1 * vecNorm v2)) := by
  constructor
  · intro h
    simp only [cosine_similarity]
    rw [if_pos h]
    norm_num
  · intro h1 h2
    refine ⟨mul_ne_zero h1 h2, ?_⟩
    simp only [cosine_similarity]
    rw [if_neg ?_]
    push_neg
    exact ⟨h1, h2⟩

/-- C10 witness: the zero-vector guard fires, and on `[3, 4]` the norm
is 5 and the division branch is taken with a nonzero divisor. -/
theorem c10_witness :
    vecNorm [(0 : ℝ)] = 0 ∧ cosine_similarity [(0 : ℝ)] [(1 : ℝ)] = 0 ∧
    vecNorm [(3 : ℝ), 4] = 5 ∧
    cosine_similarity [(3 : ℝ), 4] [(3 : ℝ), 4] =
      dotProduct [(3 : ℝ), 4] [(3 : ℝ), 4] / (5 * 5) := by
  have h0 : vecNorm [(0 : ℝ)] = 0 := by
    simp [vecNorm]
  have h34 : vecNorm [(3 : ℝ), 4] = 5 := by
    have h25 : ((3 : ℝ) * 3 + (4 * 4 + 0)) = 5 ^ 2 := by norm_num
    simp only [vecNorm, List.map_cons, List.map_nil, List.sum_cons,
      List.sum_nil, h25]
    exact Real.sqrt_sq (by norm_num)
  have h5 : vecNorm [(3 : ℝ), 4] ≠ 0 := by
    rw [h34]
    norm_num
  have hmain := (c10_cosine_similarity_guard [(3 : ℝ), 4] [(3 : ℝ), 4]).2 h5 h5
  refine ⟨h0, (c10_cosine_similarity_guard [(0 : ℝ)] [(1 : ℝ)]).1 (Or.inl h0),
    h34, ?_⟩
  rw [hmain.2, h34]

end ContradictionEngine
